import Mathlib

/-!
Shallow embedding of the notebook `src/020_Encoder.ipynb` from the
NVIDIA DLI "Transformer-Based Natural Language Processing" course material,
together with theorems settling the specification claims about it.

The notebook defines three pieces of original code:

* class `PositionalEncoding` (cell 18): builds the sinusoidal positional
  encoding table once in `init` and adds its prefix to the input in
  `forward`, followed by dropout;
* class `TransformerEncoder` (cell 6): scales token embeddings by
  sqrt(embed_dim), adds positional embeddings, applies dropout, transposes,
  runs the stack of encoder layers and an optional final layer norm;
* function `normalize` (cell 31): row-wise min-max normalization of an
  attention-weight matrix.

External framework components (the encoder layers, the fairseq
`PositionalEmbedding`, the layer norms, and the randomness used by dropout)
are modelled as abstract parameters.  Real-valued tensors are modelled over
`ℝ`, with explicit sizes where the claims speak about shapes.
-/

namespace Enc

/-- Values of a tensor with (up to) three index positions, batch/row/column. -/
abbrev Tensor3 : Type := ℕ → ℕ → ℕ → ℝ

/-- A torch tensor with three dimensions: explicit sizes plus the value map.
Only indices below the sizes are meaningful. -/
structure TorchTensor where
  size0 : ℕ
  size1 : ℕ
  size2 : ℕ
  data : Tensor3

/-- A `nn.Dropout` module.  `p` is the dropout probability and `training`
the module's mode; `mult` models the random mask-and-rescale factors drawn
when dropout is active (mask/(1-p) per element). -/
structure DropoutM where
  p : ℝ
  training : Bool
  mult : Tensor3

/-- Applying `nn.Dropout`: the identity when the module is in eval mode or
`p = 0`, otherwise an elementwise multiplication by the random factors.
Either way the shape is unchanged. -/
noncomputable def DropoutM.apply (d : DropoutM) (x : TorchTensor) : TorchTensor :=
  if d.training = true ∧ d.p ≠ 0 then
    ⟨x.size0, x.size1, x.size2, fun i j k => d.mult i j k * x.data i j k⟩
  else x

/-- Element `i` of `torch.exp(torch.arange(0.0, d_model, 2) * -(math.log(10000.0) / d_model))`
in `PositionalEncoding.__init__`: the `i`-th entry of the arange is `2*i`. -/
noncomputable def div_term (d_model : ℕ) (i : ℕ) : ℝ :=
  Real.exp (((2 * i : ℕ) : ℝ) * -(Real.log 10000 / (d_model : ℝ)))

/-- Entry `(pos, k)` of the table `pe`: the slice assignments
`pe[:, 0::2] = torch.sin(position * div_term)` and
`pe[:, 1::2] = torch.cos(position * div_term)` put
`sin(pos * div_term[k/2])` at even `k` and `cos(pos * div_term[k/2])` at odd `k`. -/
noncomputable def peVal (d_model : ℕ) (pos k : ℕ) : ℝ :=
  if k % 2 = 0 then Real.sin ((pos : ℝ) * div_term d_model (k / 2))
  else Real.cos ((pos : ℝ) * div_term d_model (k / 2))

/-- The registered buffer `pe` after `pe = pe.unsqueeze(0)`:
a `1 × max_len × d_model` tensor holding the sinusoidal table. -/
noncomputable def peBuffer (d_model max_len : ℕ) : TorchTensor :=
  ⟨1, max_len, d_model, fun _ pos k => peVal d_model pos k⟩

/-- The module state built by `PositionalEncoding.__init__(d_model, dropout, max_len)`. -/
structure PositionalEncoding where
  d_model : ℕ
  max_len : ℕ
  drop : DropoutM

/-- The slice `t[:, :n]` of a three-dimensional tensor. -/
def tslice1 (t : TorchTensor) (n : ℕ) : TorchTensor :=
  ⟨t.size0, min t.size1 n, t.size2, t.data⟩

/-- Broadcasting of one dimension: equal sizes pass through, a size of 1
stretches to the other, anything else is a shape-mismatch error. -/
def bdim (a b : ℕ) : Option ℕ :=
  if a = b then some a else if a = 1 then some b else if b = 1 then some a else none

/-- Reading a tensor for a broadcast operation: a dimension of size 1 always
reads index 0. -/
def bread (t : TorchTensor) (i j k : ℕ) : ℝ :=
  t.data (if t.size0 = 1 then 0 else i) (if t.size1 = 1 then 0 else j)
    (if t.size2 = 1 then 0 else k)

/-- Elementwise tensor addition with torch broadcasting; `none` models the
shape-mismatch RuntimeError. -/
noncomputable def tadd (a b : TorchTensor) : Option TorchTensor :=
  match bdim a.size0 b.size0, bdim a.size1 b.size1, bdim a.size2 b.size2 with
  | some s0, some s1, some s2 =>
      some ⟨s0, s1, s2, fun i j k => bread a i j k + bread b i j k⟩
  | _, _, _ => none

/-- `PositionalEncoding.forward(x)`: `x = x + Variable(self.pe[:, :x.size(1)])`
followed by `self.dropout(x)`.  `Variable(...)` is the identity on values. -/
noncomputable def PositionalEncoding.forward (m : PositionalEncoding) (x : TorchTensor) :
    Option TorchTensor :=
  match tadd x (tslice1 (peBuffer m.d_model m.max_len) x.size1) with
  | some s => some (m.drop.apply s)
  | none => none

/-- Claim C1: for every position `pos < max_len` and index `i < d_model / 2`,
the table satisfies `pe[pos, 2i] = sin(pos * 10000 ^ (-2i/d_model))` and
`pe[pos, 2i+1] = cos(pos * 10000 ^ (-2i/d_model))`; in particular the row
at `pos = 0` is the alternating vector 0, 1, 0, 1, ... -/
theorem pe_closed_form (d_model max_len pos i : ℕ)
    (hpos : pos < max_len) (hi : i < d_model / 2) :
    (peBuffer d_model max_len).data 0 pos (2 * i) =
      Real.sin ((pos : ℝ) * (10000 : ℝ) ^ (-(2 * (i : ℝ) / (d_model : ℝ)))) ∧
    (peBuffer d_model max_len).data 0 pos (2 * i + 1) =
      Real.cos ((pos : ℝ) * (10000 : ℝ) ^ (-(2 * (i : ℝ) / (d_model : ℝ)))) ∧
    (peBuffer d_model max_len).data 0 0 (2 * i) = 0 ∧
    (peBuffer d_model max_len).data 0 0 (2 * i + 1) = 1 := by
  have hpow : (10000 : ℝ) ^ (-(2 * (i : ℝ) / (d_model : ℝ))) = div_term d_model i := by
    rw [Real.rpow_def_of_pos (by norm_num : (0:ℝ) < 10000)]
    unfold div_term
    push_cast
    ring_nf
  have heven : (2 * i) % 2 = 0 := by omega
  have hodd : (2 * i + 1) % 2 = 1 := by omega
  have hdiv : 2 * i / 2 = i := by omega
  have hdiv1 : (2 * i + 1) / 2 = i := by omega
  refine ⟨?_, ?_, ?_, ?_⟩
  · simp only [peBuffer, peVal, heven, if_pos, hdiv, hpow]
  · simp only [peBuffer, peVal, hodd, hdiv1, hpow]
    norm_num
  · simp only [peBuffer, peVal, heven, if_pos, hdiv]
    norm_num
  · simp only [peBuffer, peVal, hodd, hdiv1]
    norm_num

/-- Witness for C1 at `d_model = 4`, `max_len = 500`, `pos = 1`, `i = 0`:
the second entry of the row at position 0 is 1. -/
theorem pe_closed_form_witness :
    (peBuffer 4 500).data 0 0 (2 * 0 + 1) = 1 :=
  (pe_closed_form 4 500 1 0 (by norm_num) (by norm_num)).2.2.2

/-! ## The TransformerEncoder class (cell 6) -/

/-- The command-line argument record, restricted to the fields
`TransformerEncoder` reads. -/
structure Args where
  dropout : ℝ
  fuse_dropout_add : Bool
  fuse_relu_dropout : Bool
  max_source_positions : ℕ
  encoder_learned_pos : Bool
  no_token_positional_embeddings : Bool
  encoder_layers : ℕ
  encoder_normalize_before : Bool
  fuse_layer_norm : Bool

/-- An `nn.Embedding` lookup table: declared dimension, padding index, and
the weight row of each token id. -/
structure Embedding where
  embedding_dim : ℕ
  padding_idx : ℕ
  weight : ℕ → ℕ → ℝ

/-- An encoder layer, as the external framework supplies it: a function of
the hidden states and the (optional) padding mask. -/
abbrev Layer : Type := Tensor3 → Option (List (List Bool)) → Tensor3

/-- The state of a constructed `TransformerEncoder` module. -/
structure TransformerEncoder where
  dropout : ℝ
  fuse_dropout_add : Bool
  fuse_relu_dropout : Bool
  padding_idx : ℕ
  max_source_positions : ℕ
  embed_tokens : Embedding
  embed_scale : ℝ
  embed_positions : Option (List (List ℕ) → Tensor3)
  layers : List Layer
  normalize : Bool
  layer_norm : Tensor3 → Tensor3
  training : Bool
  dropoutMult : Tensor3

/-- `TransformerEncoder.__init__(args, embed_tokens, left_pad)`.  The external
constructors are abstract parameters: `mkPosEmb` builds the fairseq
`PositionalEmbedding` from `(max_source_positions, embed_dim, padding_idx,
left_pad, learned)`; `mkLayer` builds the `i`-th `TransformerEncoderLayer(args)`
(one fresh instance per loop iteration); `fusedLN` and `nnLN` build
`FusedLayerNorm(embed_dim)` and `nn.LayerNorm(embed_dim)`.  The `layer_norm`
attribute is only assigned when `encoder_normalize_before` is set; the
identity placeholder below is never read otherwise.  `training` is the
inherited module mode and `dropoutMult` the randomness consumed by
`F.dropout` when it is active. -/
noncomputable def TransformerEncoder.init (args : Args) (embed_tokens : Embedding)
    (left_pad : Bool)
    (mkPosEmb : ℕ → ℕ → ℕ → Bool → Bool → (List (List ℕ) → Tensor3))
    (mkLayer : Args → ℕ → Layer)
    (fusedLN : ℕ → Tensor3 → Tensor3) (nnLN : ℕ → Tensor3 → Tensor3)
    (training : Bool) (dropoutMult : Tensor3) : TransformerEncoder :=
  { dropout := args.dropout
    fuse_dropout_add := args.fuse_dropout_add
    fuse_relu_dropout := args.fuse_relu_dropout
    padding_idx := embed_tokens.padding_idx
    max_source_positions := args.max_source_positions
    embed_tokens := embed_tokens
    embed_scale := Real.sqrt embed_tokens.embedding_dim
    embed_positions :=
      if args.no_token_positional_embeddings then none
      else some (mkPosEmb args.max_source_positions embed_tokens.embedding_dim
        embed_tokens.padding_idx left_pad args.encoder_learned_pos)
    layers := (List.range args.encoder_layers).map (mkLayer args)
    normalize := args.encoder_normalize_before
    layer_norm :=
      if args.encoder_normalize_before then
        (if args.fuse_layer_norm then fusedLN embed_tokens.embedding_dim
         else nnLN embed_tokens.embedding_dim)
      else fun x => x
    training := training
    dropoutMult := dropoutMult }

/-- Token id at batch `b`, position `t` of the `src_tokens` batch. -/
def tok (src : List (List ℕ)) (b t : ℕ) : ℕ := (src.getD b []).getD t 0

/-- The first line of `TransformerEncoder.forward`:
`x = self.embed_scale * self.embed_tokens(src_tokens)`. -/
noncomputable def embedScaled (enc : TransformerEncoder) (src : List (List ℕ)) : Tensor3 :=
  fun b t c => enc.embed_scale * enc.embed_tokens.weight (tok src b t) c

/-- `F.dropout(x, p, training)`: identity unless `training` holds and `p ≠ 0`,
otherwise elementwise multiplication by the random factors `mult`. -/
noncomputable def Fdropout (mult : Tensor3) (x : Tensor3) (p : ℝ) (training : Bool) : Tensor3 :=
  if training = true ∧ p ≠ 0 then fun b t c => mult b t c * x b t c else x

/-- `x.transpose(0, 1)` on values. -/
def transpose01 (x : Tensor3) : Tensor3 := fun t b c => x b t c

/-- `.contiguous()` re-lays the storage and keeps every value. -/
def contiguous (x : Tensor3) : Tensor3 := x

/-- `src_tokens.eq(self.padding_idx)`: the elementwise boolean padding mask. -/
def paddingMask (src : List (List ℕ)) (pad : ℕ) : List (List Bool) :=
  src.map (fun row => row.map (fun t => decide (t = pad)))

/-- `mask.any()`. -/
def maskAny (m : List (List Bool)) : Bool := m.any (fun row => row.any (fun b => b))

/-- `TransformerEncoder.forward(src_tokens, src_lengths)`, line by line.
`src_lengths` is accepted and ignored, as in the source. -/
noncomputable def TransformerEncoder.forward (enc : TransformerEncoder)
    (src_tokens : List (List ℕ)) (src_lengths : List ℕ) : Tensor3 × List (List Bool) :=
  let x := embedScaled enc src_tokens
  let x := match enc.embed_positions with
    | some pemb => fun b t c => x b t c + pemb src_tokens b t c
    | none => x
  let x := Fdropout enc.dropoutMult x enc.dropout enc.training
  let x := if enc.fuse_dropout_add then contiguous (transpose01 x) else transpose01 x
  let encoder_padding_mask := paddingMask src_tokens enc.padding_idx
  let maskArg := if maskAny encoder_padding_mask then some encoder_padding_mask else none
  let x := enc.layers.foldl (fun acc layer => layer acc maskArg) x
  let x := if enc.normalize then enc.layer_norm x else x
  (x, encoder_padding_mask)

/-- Claim C2: the constructed encoder scales token embeddings by the square
root of the embedding dimension: `embed_scale` is `sqrt(embedding_dim)` of
`embed_tokens`, and the value fed into the positional-encoding addition in
`forward` is `sqrt(embedding_dim) * embed_tokens(src_tokens)` pointwise. -/
theorem embed_scale_sqrt (args : Args) (et : Embedding) (left_pad : Bool)
    (mkPosEmb : ℕ → ℕ → ℕ → Bool → Bool → (List (List ℕ) → Tensor3))
    (mkLayer : Args → ℕ → Layer)
    (fusedLN nnLN : ℕ → Tensor3 → Tensor3) (training : Bool) (dropoutMult : Tensor3)
    (src : List (List ℕ)) :
    (TransformerEncoder.init args et left_pad mkPosEmb mkLayer fusedLN nnLN
        training dropoutMult).embed_scale = Real.sqrt et.embedding_dim ∧
    ∀ b t c, embedScaled (TransformerEncoder.init args et left_pad mkPosEmb mkLayer
        fusedLN nnLN training dropoutMult) src b t c =
      Real.sqrt et.embedding_dim * et.weight (tok src b t) c := by
  constructor
  · rfl
  · intro b t c
    rfl

/-- Claim C3: `forward` of a freshly constructed encoder performs exactly:
scaled token embedding, then addition of the positional embeddings (skipped
precisely when `args.no_token_positional_embeddings` made `embed_positions`
`None`), then dropout, then (after the layout transpose from B x T x C to
T x B x C) the `args.encoder_layers` encoder layers one after another in
construction order, then a final layer normalization applied if and only if
`args.encoder_normalize_before` is true. -/
theorem forward_pipeline (args : Args) (et : Embedding) (left_pad : Bool)
    (mkPosEmb : ℕ → ℕ → ℕ → Bool → Bool → (List (List ℕ) → Tensor3))
    (mkLayer : Args → ℕ → Layer)
    (fusedLN nnLN : ℕ → Tensor3 → Tensor3) (training : Bool) (dropoutMult : Tensor3)
    (src : List (List ℕ)) (lengths : List ℕ) :
    TransformerEncoder.forward
        (TransformerEncoder.init args et left_pad mkPosEmb mkLayer fusedLN nnLN
          training dropoutMult) src lengths =
      (let x0 := embedScaled (TransformerEncoder.init args et left_pad mkPosEmb mkLayer
        fusedLN nnLN training dropoutMult) src
       let x1 := if args.no_token_positional_embeddings then x0
         else fun b t c => x0 b t c +
           mkPosEmb args.max_source_positions et.embedding_dim et.padding_idx
             left_pad args.encoder_learned_pos src b t c
       let x2 := Fdropout dropoutMult x1 args.dropout training
       let x3 := transpose01 x2
       let mask := paddingMask src et.padding_idx
       let maskArg := if maskAny mask then some mask else none
       let x4 := ((List.range args.encoder_layers).map (mkLayer args)).foldl
         (fun acc layer => layer acc maskArg) x3
       (if args.encoder_normalize_before then
          (if args.fuse_layer_norm then fusedLN et.embedding_dim
           else nnLN et.embedding_dim) x4
        else x4, mask)) := by
  unfold TransformerEncoder.forward TransformerEncoder.init
  cases hpos : args.no_token_positional_embeddings <;>
    cases hfda : args.fuse_dropout_add <;>
      cases hnorm : args.encoder_normalize_before <;>
        simp [contiguous]

/-- Claim C7: with dropout inactive (eval mode or dropout probability 0) the
computation is deterministic: the output of `TransformerEncoder.forward` does
not depend on the randomness `F.dropout` would consume, and the output of
`PositionalEncoding.forward` does not depend on the randomness of its
`nn.Dropout` module.  Both forwards are pure functions of their module state
and input, so equal states and inputs give equal outputs. -/
theorem forward_deterministic :
    (∀ (enc : TransformerEncoder) (mult1 mult2 : Tensor3)
        (h : enc.training = false ∨ enc.dropout = 0)
        (src : List (List ℕ)) (lengths : List ℕ),
      TransformerEncoder.forward { enc with dropoutMult := mult1 } src lengths =
      TransformerEncoder.forward { enc with dropoutMult := mult2 } src lengths) ∧
    (∀ (m : PositionalEncoding) (mult1 mult2 : Tensor3)
        (h : m.drop.training = false ∨ m.drop.p = 0) (x : TorchTensor),
      PositionalEncoding.forward
          { m with drop := { m.drop with mult := mult1 } } x =
        PositionalEncoding.forward
          { m with drop := { m.drop with mult := mult2 } } x) := by
  constructor
  · intro enc mult1 mult2 h src lengths
    unfold TransformerEncoder.forward
    have hdrop : ∀ x, Fdropout mult1 x enc.dropout enc.training =
        Fdropout mult2 x enc.dropout enc.training := by
      intro x
      unfold Fdropout
      rcases h with h | h <;> simp [h]
    have hemb : ∀ m : Tensor3,
        embedScaled { enc with dropoutMult := m } src = embedScaled enc src :=
      fun _ => rfl
    simp only [hemb, hdrop]
  · intro m mult1 mult2 h x
    unfold PositionalEncoding.forward
    have hdrop : ∀ s, DropoutM.apply { m.drop with mult := mult1 } s =
        DropoutM.apply { m.drop with mult := mult2 } s := by
      intro s
      unfold DropoutM.apply
      rcases h with h | h <;> simp [h]
    cases tadd x (tslice1 (peBuffer m.d_model m.max_len) x.size1) <;> simp [hdrop]

/-- Witness for C7: a concrete encoder in eval mode and a concrete
positional-encoding module with p = 0, each under two different draws of
dropout randomness, give identical outputs. -/
theorem forward_deterministic_witness :
    (TransformerEncoder.forward
        { dropout := 1/2, fuse_dropout_add := true, fuse_relu_dropout := false,
          padding_idx := 1, max_source_positions := 10,
          embed_tokens := ⟨4, 1, fun _ _ => 0⟩, embed_scale := 2,
          embed_positions := none, layers := [], normalize := false,
          layer_norm := fun x => x, training := false,
          dropoutMult := fun _ _ _ => 0 } [[2, 3]] [2] =
      TransformerEncoder.forward
        { dropout := 1/2, fuse_dropout_add := true, fuse_relu_dropout := false,
          padding_idx := 1, max_source_positions := 10,
          embed_tokens := ⟨4, 1, fun _ _ => 0⟩, embed_scale := 2,
          embed_positions := none, layers := [], normalize := false,
          layer_norm := fun x => x, training := false,
          dropoutMult := fun _ _ _ => 1 } [[2, 3]] [2]) ∧
    (PositionalEncoding.forward
        ⟨4, 500, { p := 0, training := true, mult := fun _ _ _ => 0 }⟩
        ⟨1, 2, 4, fun _ _ _ => 0⟩ =
      PositionalEncoding.forward
        ⟨4, 500, { p := 0, training := true, mult := fun _ _ _ => 1 }⟩
        ⟨1, 2, 4, fun _ _ _ => 0⟩) :=
  ⟨forward_deterministic.1
      { dropout := 1/2, fuse_dropout_add := true, fuse_relu_dropout := false,
        padding_idx := 1, max_source_positions := 10,
        embed_tokens := ⟨4, 1, fun _ _ => 0⟩, embed_scale := 2,
        embed_positions := none, layers := [], normalize := false,
        layer_norm := fun x => x, training := false,
        dropoutMult := fun _ _ _ => 0 }
      (fun _ _ _ => 0) (fun _ _ _ => 1) (Or.inl rfl) [[2, 3]] [2],
    forward_deterministic.2
      ⟨4, 500, { p := 0, training := true, mult := fun _ _ _ => 0 }⟩
      (fun _ _ _ => 0) (fun _ _ _ => 1) (Or.inr rfl)
      ⟨1, 2, 4, fun _ _ _ => 0⟩⟩

/-- Claim C8: the second component returned by `TransformerEncoder.forward`
is always the full elementwise mask `src_tokens.eq(padding_idx)` of shape
B x T; when no token is the padding index it is the all-false mask, not
`None` (`None` is substituted only for the argument handed to the layers). -/
theorem forward_padding_mask (enc : TransformerEncoder) (src : List (List ℕ))
    (lengths : List ℕ) :
    (TransformerEncoder.forward enc src lengths).2 =
      src.map (fun row => row.map (fun t => decide (t = enc.padding_idx))) ∧
    (TransformerEncoder.forward enc src lengths).2.length = src.length ∧
    (∀ b, ((TransformerEncoder.forward enc src lengths).2.getD b []).length =
      (src.getD b []).length) ∧
    ((∀ row ∈ src, ∀ t ∈ row, t ≠ enc.padding_idx) →
      (TransformerEncoder.forward enc src lengths).2 =
        src.map (fun row => row.map (fun _ => false))) := by
  have hsnd : (TransformerEncoder.forward enc src lengths).2 =
      src.map (fun row => row.map (fun t => decide (t = enc.padding_idx))) := rfl
  refine ⟨hsnd, ?_, ?_, ?_⟩
  · rw [hsnd, List.length_map]
  · intro b
    rw [hsnd, List.getD_eq_getElem?_getD, List.getElem?_map, List.getD_eq_getElem?_getD]
    cases h : src[b]? <;> simp
  · intro hnone
    rw [hsnd]
    refine List.map_congr_left (fun row hrow => List.map_congr_left (fun t ht => ?_))
    simpa using hnone row hrow t ht

/-- Witness for C8's conditional part: tokens [[2, 3]] with padding index 1
contain no padding, and the returned mask is the all-false mask. -/
theorem forward_padding_mask_witness :
    (TransformerEncoder.forward
        { dropout := 0, fuse_dropout_add := true, fuse_relu_dropout := false,
          padding_idx := 1, max_source_positions := 10,
          embed_tokens := ⟨4, 1, fun _ _ => 0⟩, embed_scale := 2,
          embed_positions := none, layers := [], normalize := false,
          layer_norm := fun x => x, training := false,
          dropoutMult := fun _ _ _ => 0 } [[2, 3]] [2]).2 =
      [[2, 3]].map (fun row => row.map (fun _ => false)) :=
  (forward_padding_mask
      { dropout := 0, fuse_dropout_add := true, fuse_relu_dropout := false,
        padding_idx := 1, max_source_positions := 10,
        embed_tokens := ⟨4, 1, fun _ _ => 0⟩, embed_scale := 2,
        embed_positions := none, layers := [], normalize := false,
        layer_norm := fun x => x, training := false,
        dropoutMult := fun _ _ _ => 0 } [[2, 3]] [2]).2.2.2
    (by decide)

/-- Broadcasting against a matching dimension succeeds with that size. -/
theorem bdim_self (a : ℕ) : bdim a a = some a := by
  simp [bdim]

/-- Broadcasting any dimension against a dimension of size 1 succeeds. -/
theorem bdim_one_right (a : ℕ) : bdim a 1 = some a := by
  unfold bdim
  by_cases h : a = 1 <;> simp [h]

/-- Under the module's shape contract the broadcast addition with the sliced
table succeeds, with the input's shape. -/
theorem tadd_pe_some (m : PositionalEncoding) (x : TorchTensor)
    (h1 : x.size1 ≤ m.max_len) (h2 : x.size2 = m.d_model) :
    tadd x (tslice1 (peBuffer m.d_model m.max_len) x.size1) =
      some ⟨x.size0, x.size1, x.size2, fun i j k => bread x i j k +
        bread (tslice1 (peBuffer m.d_model m.max_len) x.size1) i j k⟩ := by
  have e0 : bdim x.size0 (tslice1 (peBuffer m.d_model m.max_len) x.size1).size0 =
      some x.size0 := bdim_one_right _
  have e1 : bdim x.size1 (tslice1 (peBuffer m.d_model m.max_len) x.size1).size1 =
      some x.size1 := by
    show bdim x.size1 (min m.max_len x.size1) = some x.size1
    rw [min_eq_right h1]
    exact bdim_self _
  have e2 : bdim x.size2 (tslice1 (peBuffer m.d_model m.max_len) x.size1).size2 =
      some x.size2 := by
    show bdim x.size2 m.d_model = some x.size2
    rw [← h2]
    exact bdim_self _
  unfold tadd
  rw [e0, e1, e2]

/-- Claim C4: for inputs whose sequence length is at most `max_len` (and
with the module's feature dimension), `PositionalEncoding.forward` returns
`dropout(x + pe[:, :x.size(1)])`, and the result has exactly the shape
of `x`. -/
theorem pe_forward_shape (m : PositionalEncoding) (x : TorchTensor)
    (h1 : x.size1 ≤ m.max_len) (h2 : x.size2 = m.d_model) :
    ∃ s, tadd x (tslice1 (peBuffer m.d_model m.max_len) x.size1) = some s ∧
      PositionalEncoding.forward m x = some (m.drop.apply s) ∧
      (m.drop.apply s).size0 = x.size0 ∧ (m.drop.apply s).size1 = x.size1 ∧
      (m.drop.apply s).size2 = x.size2 := by
  have htadd := tadd_pe_some m x h1 h2
  refine ⟨_, htadd, ?_, ?_, ?_, ?_⟩
  · unfold PositionalEncoding.forward
    rw [htadd]
  · unfold DropoutM.apply
    split <;> rfl
  · unfold DropoutM.apply
    split <;> rfl
  · unfold DropoutM.apply
    split <;> rfl

/-- Witness for C4 at a concrete module (d_model 4, max_len 500, p 0) and
a concrete input of shape 1 x 2 x 4: forward succeeds and keeps the shape. -/
theorem pe_forward_shape_witness :
    ∃ s, tadd ⟨1, 2, 4, fun _ _ _ => 0⟩
        (tslice1 (peBuffer 4 500) (TorchTensor.size1 ⟨1, 2, 4, fun _ _ _ => 0⟩)) = some s ∧
      PositionalEncoding.forward
        ⟨4, 500, { p := 0, training := false, mult := fun _ _ _ => 0 }⟩
        ⟨1, 2, 4, fun _ _ _ => 0⟩ =
        some (DropoutM.apply { p := 0, training := false, mult := fun _ _ _ => 0 } s) ∧
      (DropoutM.apply { p := 0, training := false, mult := fun _ _ _ => 0 } s).size0 = 1 ∧
      (DropoutM.apply { p := 0, training := false, mult := fun _ _ _ => 0 } s).size1 = 2 ∧
      (DropoutM.apply { p := 0, training := false, mult := fun _ _ _ => 0 } s).size2 = 4 :=
  pe_forward_shape ⟨4, 500, { p := 0, training := false, mult := fun _ _ _ => 0 }⟩
    ⟨1, 2, 4, fun _ _ _ => 0⟩ (by norm_num) rfl

/-! ## The plotting helper normalize (cell 31) -/

/-- A 2-D numpy array of floats, as a list of rows. -/
abbrev Mat : Type := List (List ℝ)

/-- `np.min` over one row; numpy raises on an empty input, the total model
returns 0 there (the Option-level model below tracks the error case). -/
noncomputable def npMin : List ℝ → ℝ
  | [] => 0
  | v :: t => t.foldl min v

/-- `np.max` over one row. -/
noncomputable def npMax : List ℝ → ℝ
  | [] => 0
  | v :: t => t.foldl max v

/-- The row the source writes into `out[rowno, :]`:
`(vals - np.min(vals)) / (np.max(vals) - np.min(vals))`. -/
noncomputable def normalizeRow (vals : List ℝ) : List ℝ :=
  vals.map (fun v => (v - npMin vals) / (npMax vals - npMin vals))

/-- The function `normalize(arr)` of cell 31, value-level: every row of the
output is the min-max normalized corresponding input row. -/
noncomputable def normalize (arr : Mat) : Mat :=
  arr.map normalizeRow

theorem foldl_min_le_init (t : List ℝ) (a : ℝ) : t.foldl min a ≤ a := by
  induction t generalizing a with
  | nil => exact le_refl a
  | cons y t ih => exact le_trans (ih (min a y)) (min_le_left a y)

theorem foldl_min_le_mem {x : ℝ} {t : List ℝ} (hx : x ∈ t) (a : ℝ) :
    t.foldl min a ≤ x := by
  induction t generalizing a with
  | nil => cases hx
  | cons y t ih =>
    rcases List.mem_cons.mp hx with h | h
    · subst h
      exact le_trans (foldl_min_le_init t (min a x)) (min_le_right a x)
    · exact ih h (min a y)

theorem foldl_min_eq_or_mem (t : List ℝ) (a : ℝ) :
    t.foldl min a = a ∨ t.foldl min a ∈ t := by
  induction t generalizing a with
  | nil => exact Or.inl rfl
  | cons y t ih =>
    rcases ih (min a y) with h | h
    · rcases min_choice a y with hm | hm
      · exact Or.inl (by rw [List.foldl_cons, h, hm])
      · exact Or.inr (by rw [List.foldl_cons, h, hm]; exact List.mem_cons_self y t)
    · exact Or.inr (List.mem_cons_of_mem y h)

theorem foldl_min_map (f : ℝ → ℝ) (hf : Monotone f) (t : List ℝ) (a : ℝ) :
    (t.map f).foldl min (f a) = f (t.foldl min a) := by
  induction t generalizing a with
  | nil => rfl
  | cons y t ih =>
    show (t.map f).foldl min (min (f a) (f y)) = f (t.foldl min (min a y))
    rw [← hf.map_min]
    exact ih (min a y)

theorem le_foldl_max_init (t : List ℝ) (a : ℝ) : a ≤ t.foldl max a := by
  induction t generalizing a with
  | nil => exact le_refl a
  | cons y t ih => exact le_trans (le_max_left a y) (ih (max a y))

theorem mem_le_foldl_max {x : ℝ} {t : List ℝ} (hx : x ∈ t) (a : ℝ) :
    x ≤ t.foldl max a := by
  induction t generalizing a with
  | nil => cases hx
  | cons y t ih =>
    rcases List.mem_cons.mp hx with h | h
    · subst h
      exact le_trans (le_max_right a x) (le_foldl_max_init t (max a x))
    · exact ih h (max a y)

theorem foldl_max_eq_or_mem (t : List ℝ) (a : ℝ) :
    t.foldl max a = a ∨ t.foldl max a ∈ t := by
  induction t generalizing a with
  | nil => exact Or.inl rfl
  | cons y t ih =>
    rcases ih (max a y) with h | h
    · rcases max_choice a y with hm | hm
      · exact Or.inl (by rw [List.foldl_cons, h, hm])
      · exact Or.inr (by rw [List.foldl_cons, h, hm]; exact List.mem_cons_self y t)
    · exact Or.inr (List.mem_cons_of_mem y h)

theorem foldl_max_map (f : ℝ → ℝ) (hf : Monotone f) (t : List ℝ) (a : ℝ) :
    (t.map f).foldl max (f a) = f (t.foldl max a) := by
  induction t generalizing a with
  | nil => rfl
  | cons y t ih =>
    show (t.map f).foldl max (max (f a) (f y)) = f (t.foldl max (max a y))
    rw [← hf.map_max]
    exact ih (max a y)

theorem npMin_le {x : ℝ} {l : List ℝ} (hx : x ∈ l) : npMin l ≤ x := by
  cases l with
  | nil => cases hx
  | cons v t =>
    rcases List.mem_cons.mp hx with h | h
    · subst h
      exact foldl_min_le_init t x
    · exact foldl_min_le_mem h v

theorem le_npMax {x : ℝ} {l : List ℝ} (hx : x ∈ l) : x ≤ npMax l := by
  cases l with
  | nil => cases hx
  | cons v t =>
    rcases List.mem_cons.mp hx with h | h
    · subst h
      exact le_foldl_max_init t x
    · exact mem_le_foldl_max h v

theorem npMin_map (f : ℝ → ℝ) (hf : Monotone f) (l : List ℝ) (hne : l ≠ []) :
    npMin (l.map f) = f (npMin l) := by
  cases l with
  | nil => exact absurd rfl hne
  | cons v t => exact foldl_min_map f hf t v

theorem npMax_map (f : ℝ → ℝ) (hf : Monotone f) (l : List ℝ) (hne : l ≠ []) :
    npMax (l.map f) = f (npMax l) := by
  cases l with
  | nil => exact absurd rfl hne
  | cons v t => exact foldl_max_map f hf t v

theorem row_ne_nil_of_min_lt_max {vals : List ℝ} (hlt : npMin vals < npMax vals) :
    vals ≠ [] := by
  intro h
  subst h
  exact lt_irrefl 0 hlt

theorem minmax_monotone {m M : ℝ} (h : m < M) :
    Monotone (fun v : ℝ => (v - m) / (M - m)) := by
  intro a b hab
  exact div_le_div_of_nonneg_right (sub_le_sub_right hab m) (sub_pos.mpr h).le

theorem npMin_normalizeRow {vals : List ℝ} (hlt : npMin vals < npMax vals) :
    npMin (normalizeRow vals) = 0 := by
  unfold normalizeRow
  rw [npMin_map _ (minmax_monotone hlt) _ (row_ne_nil_of_min_lt_max hlt)]
  rw [sub_self, zero_div]

theorem npMax_normalizeRow {vals : List ℝ} (hlt : npMin vals < npMax vals) :
    npMax (normalizeRow vals) = 1 := by
  unfold normalizeRow
  rw [npMax_map _ (minmax_monotone hlt) _ (row_ne_nil_of_min_lt_max hlt)]
  exact div_self (sub_pos.mpr hlt).ne'

theorem normalizeRow_mem_bounds {vals : List ℝ} (hlt : npMin vals < npMax vals)
    {v : ℝ} (hv : v ∈ normalizeRow vals) : 0 ≤ v ∧ v ≤ 1 := by
  rcases List.mem_map.mp hv with ⟨x, hx, rfl⟩
  have hden : (0:ℝ) < npMax vals - npMin vals := sub_pos.mpr hlt
  constructor
  · exact div_nonneg (sub_nonneg.mpr (npMin_le hx)) hden.le
  · exact (div_le_one hden).mpr (sub_le_sub_right (le_npMax hx) _)

theorem normalize_getD (arr : Mat) (r : ℕ) :
    (normalize arr).getD r [] = normalizeRow (arr.getD r []) := by
  unfold normalize
  induction arr generalizing r with
  | nil =>
    cases r <;> rfl
  | cons row rest ih =>
    cases r with
    | zero => rfl
    | succ n => exact ih n

/-- Claim C5: normalize performs row-wise min-max normalization: each output
row whose input row has max strictly above min equals
(vals - min(vals)) / (max(vals) - min(vals)); every entry of that output row
lies in [0, 1], with minimum exactly 0 and maximum exactly 1. -/
theorem normalize_rowwise (arr : Mat) (r : ℕ) (hr : r < arr.length)
    (hlt : npMin (arr.getD r []) < npMax (arr.getD r [])) :
    (normalize arr).getD r [] =
      (arr.getD r []).map (fun v =>
        (v - npMin (arr.getD r [])) / (npMax (arr.getD r []) - npMin (arr.getD r []))) ∧
    (∀ v ∈ (normalize arr).getD r [], 0 ≤ v ∧ v ≤ 1) ∧
    npMin ((normalize arr).getD r []) = 0 ∧
    npMax ((normalize arr).getD r []) = 1 := by
  rw [normalize_getD]
  exact ⟨rfl, fun v hv => normalizeRow_mem_bounds hlt hv,
    npMin_normalizeRow hlt, npMax_normalizeRow hlt⟩

/-- Witness for C5 at the matrix [[0, 2], [4, 1]] and row 0: the normalized
row is [0, 1] with the stated bounds and extrema. -/
theorem normalize_rowwise_witness :
    (normalize [[0, 2], [4, 1]]).getD 0 [] =
      (([[(0:ℝ), 2], [4, 1]] : Mat).getD 0 []).map (fun v =>
        (v - npMin (([[(0:ℝ), 2], [4, 1]] : Mat).getD 0 [])) /
          (npMax (([[(0:ℝ), 2], [4, 1]] : Mat).getD 0 []) -
            npMin (([[(0:ℝ), 2], [4, 1]] : Mat).getD 0 []))) ∧
    (∀ v ∈ (normalize [[0, 2], [4, 1]]).getD 0 [], 0 ≤ v ∧ v ≤ 1) ∧
    npMin ((normalize [[0, 2], [4, 1]]).getD 0 []) = 0 ∧
    npMax ((normalize [[0, 2], [4, 1]]).getD 0 []) = 1 :=
  normalize_rowwise [[0, 2], [4, 1]] 0 (by norm_num)
    (by show npMin [0, 2] < npMax [0, 2]; simp [npMin, npMax])

/-- Claim C9: normalize is idempotent on matrices in which every row's
maximum strictly exceeds its minimum. -/
theorem normalize_idempotent (arr : Mat)
    (h : ∀ row ∈ arr, npMin row < npMax row) :
    normalize (normalize arr) = normalize arr := by
  unfold normalize
  rw [List.map_map]
  refine List.map_congr_left (fun row hrow => ?_)
  show normalizeRow (normalizeRow row) = normalizeRow row
  have h0 := npMin_normalizeRow (h row hrow)
  have h1 := npMax_normalizeRow (h row hrow)
  conv_lhs => rw [normalizeRow]
  rw [h0, h1]
  simp

/-- Witness for C9 at the matrix [[0, 2], [4, 1]]. -/
theorem normalize_idempotent_witness :
    normalize (normalize [[0, 2], [4, 1]]) = normalize [[0, 2], [4, 1]] :=
  normalize_idempotent [[0, 2], [4, 1]] (by
    intro row hrow
    rcases List.mem_cons.mp hrow with h | h
    · subst h
      show npMin [0, 2] < npMax [0, 2]
      simp [npMin, npMax]
    · rcases List.mem_cons.mp h with h2 | h2
      · subst h2
        show npMin [4, 1] < npMax [4, 1]
        simp [npMin, npMax]
      · cases h2)

/-! ## Error cases of the glue code (claim C6) -/

/-- `np.min` at the error level: `none` models the ValueError numpy raises
on an empty input. -/
noncomputable def npMinE : List ℝ → Option ℝ
  | [] => none
  | v :: t => some (t.foldl min v)

/-- `np.max` at the error level. -/
noncomputable def npMaxE : List ℝ → Option ℝ
  | [] => none
  | v :: t => some (t.foldl max v)

/-- One loop body of `normalize` at the error level: it can only fail in
`np.min` or `np.max` on an empty row (the division itself never raises in
numpy, it produces nan or inf values). -/
noncomputable def normalizeRowE (vals : List ℝ) : Option (List ℝ) :=
  match npMinE vals, npMaxE vals with
  | some m, some M => some (vals.map (fun v => (v - m) / (M - m)))
  | _, _ => none

/-- The whole `normalize(arr)` call at the error level. -/
noncomputable def normalizeE : Mat → Option Mat
  | [] => some []
  | row :: rest =>
    match normalizeRowE row, normalizeE rest with
    | some r, some rs => some (r :: rs)
    | _, _ => none

theorem normalizeRowE_eq {row : List ℝ} (hne : row ≠ []) :
    normalizeRowE row = some (normalizeRow row) := by
  cases row with
  | nil => exact absurd rfl hne
  | cons v t => rfl

theorem normalizeE_eq {arr : Mat} (h : ∀ row ∈ arr, row ≠ []) :
    normalizeE arr = some (normalize arr) := by
  induction arr with
  | nil => rfl
  | cons row rest ih =>
    have h1 : normalizeRowE row = some (normalizeRow row) :=
      normalizeRowE_eq (h row (List.mem_cons_self row rest))
    have h2 : normalizeE rest = some (normalize rest) :=
      ih (fun r hr => h r (List.mem_cons_of_mem row hr))
    show (match normalizeRowE row, normalizeE rest with
      | some r, some rs => some (r :: rs)
      | _, _ => none) = some (normalize (row :: rest))
    rw [h1, h2]
    rfl

/-- Claim C6: the notebook's glue code has no error cases of its own: on
every matrix with at least one row and no empty row, `normalize` completes
and returns its (pure) result, and on every input tensor with sequence
length at most `max_len` and the module's feature dimension,
`PositionalEncoding.forward` completes; the only failure points are the
external numpy/torch primitives on malformed input. -/
theorem glue_code_no_errors :
    (∀ arr : Mat, arr ≠ [] → (∀ row ∈ arr, row ≠ []) →
      normalizeE arr = some (normalize arr)) ∧
    (∀ (m : PositionalEncoding) (x : TorchTensor),
      x.size1 ≤ m.max_len → x.size2 = m.d_model →
      (PositionalEncoding.forward m x).isSome = true) := by
  constructor
  · intro arr _ h
    exact normalizeE_eq h
  · intro m x h1 h2
    unfold PositionalEncoding.forward
    rw [tadd_pe_some m x h1 h2]
    rfl

/-- Witness for C6: the matrix [[1, 2]] and a 1 x 2 x 4 tensor against the
(4, 500) module both complete. -/
theorem glue_code_no_errors_witness :
    normalizeE [[1, 2]] = some (normalize [[1, 2]]) ∧
    (PositionalEncoding.forward
        ⟨4, 500, { p := 0, training := false, mult := fun _ _ _ => 0 }⟩
        ⟨1, 2, 4, fun _ _ _ => 0⟩).isSome = true :=
  ⟨glue_code_no_errors.1 [[1, 2]] (by simp) (by simp),
    glue_code_no_errors.2 ⟨4, 500, { p := 0, training := false, mult := fun _ _ _ => 0 }⟩
      ⟨1, 2, 4, fun _ _ _ => 0⟩ (by norm_num) rfl⟩

/-! ## normalize as a heap program (claim C10) -/

/-- `np.zeros_like(arr)` for a float matrix: a fresh all-zero array of the
same shape. -/
noncomputable def zerosLike (a : Mat) : Mat := a.map (fun row => row.map (fun _ => (0:ℝ)))

/-- One iteration of the `for rowno in range(arr.shape[0])` loop, acting on
the numpy heap: read row `rowno` through the `arr` reference at `src`,
write its min-max normalized version into row `rowno` of the array at `dst`. -/
noncomputable def normalizeStep (h : List Mat) (src dst rowno : ℕ) : List Mat :=
  let vals := (h.getD src []).getD rowno []
  h.set dst ((h.getD dst []).set rowno
    (vals.map (fun v => (v - npMin vals) / (npMax vals - npMin vals))))

/-- The body of `normalize` as a heap program: allocate
`out = np.zeros_like(arr)` at a fresh address, run the row loop, and return
the final heap together with the address of `out`. -/
noncomputable def normalizeProg (h : List Mat) (p : ℕ) : List Mat × ℕ :=
  let arr := h.getD p []
  let h1 := h ++ [zerosLike arr]
  ((List.range arr.length).foldl
    (fun hh rowno => normalizeStep hh p h.length rowno) h1, h.length)

theorem getD_set_of_ne {α : Type} (l : List α) {i j : ℕ} (hij : i ≠ j) (a d : α) :
    (l.set i a).getD j d = l.getD j d := by
  rw [List.getD_eq_getElem?_getD, List.getD_eq_getElem?_getD, List.getElem?_set_ne hij]

theorem foldl_normalizeStep_getD (rows : List ℕ) (hh : List Mat) (src dst q : ℕ)
    (hq : q ≠ dst) :
    (rows.foldl (fun h2 rowno => normalizeStep h2 src dst rowno) hh).getD q [] =
      hh.getD q [] := by
  induction rows generalizing hh with
  | nil => rfl
  | cons r rows ih =>
    rw [List.foldl_cons, ih]
    exact getD_set_of_ne _ (Ne.symm hq) _ _

/-- Claim C10: `normalize` never modifies its argument: every array already
on the heap, in particular the argument at address `p`, is unchanged after
the call; all writes go to the freshly allocated output array. -/
theorem normalizeProg_frame (h : List Mat) (p : ℕ) (hp : p < h.length) :
    ((normalizeProg h p).1).getD p [] = h.getD p [] ∧
    ∀ q, q < h.length → ((normalizeProg h p).1).getD q [] = h.getD q [] := by
  have hgen : ∀ q, q < h.length → ((normalizeProg h p).1).getD q [] = h.getD q [] := by
    intro q hq
    unfold normalizeProg
    rw [foldl_normalizeStep_getD _ _ _ _ _ (Nat.ne_of_lt hq)]
    rw [List.getD_eq_getElem?_getD, List.getElem?_append_left hq,
      ← List.getD_eq_getElem?_getD]
  exact ⟨hgen p hp, hgen⟩

/-- Witness for C10: on the heap holding the single matrix [[1, 2]], the
input array is untouched by the call. -/
theorem normalizeProg_frame_witness :
    ((normalizeProg [[[1, 2]]] 0).1).getD 0 [] = ([[[1, 2]]] : List Mat).getD 0 [] :=
  (normalizeProg_frame [[[1, 2]]] 0 (by norm_num)).1

end Enc
